import Mathlib

/-!
Verification of the ByteMap binary-to-image codec.

The core of the program (shared by both application variants) is:
  - `binary_to_rgba_pixels` : pad a bit string to a multiple of 32 bits with
    trailing zero bits, then map each 32-bit chunk to one RGBA pixel,
    8 bits per channel, most significant bit first;
  - `rgba_pixels_to_binary` : the reverse flattening, emitting each channel
    of each pixel as an 8-bit big-endian bit string;
  - the raster layout `pixel_count = ceil(bits/32)`,
    `width = height = isqrt(pixel_count) + 1`;
  - the decode-side byte reassembly
    `int(binary_data, 2).to_bytes((len(binary_data) + 7) // 8, "big")`;
  - the orchestrators `convert_file_to_image` / `convert_image_to_file`,
    which call an external zstd compressor / decompressor at their boundary.

Bits are modelled as `List Bool` (the program uses strings of the characters
0 and 1), bytes as `Nat` values below 256, pixel grids as row-major lists of
pixels.  The zstd compressor and decompressor are external library calls, so
they appear as function parameters constrained only by the contract the
specification states for them.  The floating point square root
`int(pixel_count ** 0.5)` is modelled as the exact integer square root
`Nat.sqrt`, which is what it computes on every input size the double format
represents exactly.
-/

namespace ByteMap

/-- One RGBA pixel: four unsigned 8-bit channel values. -/
structure Pixel where
  r : Nat
  g : Nat
  b : Nat
  a : Nat
deriving DecidableEq, Repr

/-- Big-endian value of a bit string, as computed by `int(chunk, 2)`. -/
def bitsToNat (l : List Bool) : Nat :=
  l.foldl (fun acc b => 2 * acc + (if b then 1 else 0)) 0

/-- The 8-bit big-endian rendering of a byte, as produced by
`format(byte, "08b")` for values below 256. -/
def byteToBits (n : Nat) : List Bool :=
  [n.testBit 7, n.testBit 6, n.testBit 5, n.testBit 4,
   n.testBit 3, n.testBit 2, n.testBit 1, n.testBit 0]

/-- Rendering of a byte sequence as a bit sequence, as produced by
`"".join(format(byte, "08b") for byte in data)`. -/
def bytesToBits : List Nat → List Bool
  | [] => []
  | b :: bs => byteToBits b ++ bytesToBits bs

/-- The pixel built from one 32-bit chunk: slices `[0:8)`, `[8:16)`,
`[16:24)`, `[24:32)` interpreted as unsigned integers. -/
def pixelOfChunk (chunk : List Bool) : Pixel :=
  ⟨bitsToNat (chunk.take 8), bitsToNat ((chunk.drop 8).take 8),
   bitsToNat ((chunk.drop 16).take 8), bitsToNat ((chunk.drop 24).take 8)⟩

/-- The chunking loop `for i in range(0, len(binary_data), 32)`, taking the
given number of 32-bit slices in order. -/
def chunkPixelsAux : Nat → List Bool → List Pixel
  | 0, _ => []
  | n + 1, l => pixelOfChunk (l.take 32) :: chunkPixelsAux n (l.drop 32)

/-- `binary_to_rgba_pixels`: append `(32 - len % 32) % 32` zero bits, then
map each 32-bit chunk to a pixel; also returns the padding length. -/
def binary_to_rgba_pixels (bits : List Bool) : List Pixel × Nat :=
  let padding_length := (32 - bits.length % 32) % 32
  let padded := bits ++ List.replicate padding_length false
  (chunkPixelsAux ((padded.length + 31) / 32) padded, padding_length)

/-- The 32-bit rendering of one pixel inside `rgba_pixels_to_binary`. -/
def pixelToBits (p : Pixel) : List Bool :=
  byteToBits p.r ++ byteToBits p.g ++ byteToBits p.b ++ byteToBits p.a

/-- `rgba_pixels_to_binary`: concatenate the 8-bit renderings of the four
channels of every pixel, pixels in order. -/
def rgba_pixels_to_binary : List Pixel → List Bool
  | [] => []
  | p :: ps => pixelToBits p ++ rgba_pixels_to_binary ps

/-- `create_image_from_binary`: pack the bits and place the pixels row-major
at the start of a `width * height` image whose remaining cells keep the
all-zero default fill of `Image.new`. -/
def create_image_from_binary (bits : List Bool) (width height : Nat) : List Pixel :=
  let pixels := (binary_to_rgba_pixels bits).1
  pixels ++ List.replicate (width * height - pixels.length) ⟨0, 0, 0, 0⟩

/-- `create_binary_from_image`: flatten the row-major pixel data of the
image back to a bit sequence. -/
def create_binary_from_image (pixels : List Pixel) : List Bool :=
  rgba_pixels_to_binary pixels

/-- Big-endian byte rendering of a natural number into a fixed number of
bytes, as computed by `n.to_bytes(k, "big")`. -/
def natToBytesBE (n : Nat) : Nat → List Nat
  | 0 => []
  | k + 1 => n / 256 ^ k % 256 :: natToBytesBE n k

/-- The decode-side byte reassembly
`int(binary_data, 2).to_bytes((len(binary_data) + 7) // 8, "big")`. -/
def bitstring_to_bytes (bits : List Bool) : List Nat :=
  natToBytesBE (bitsToNat bits) ((bits.length + 7) / 8)

/-- The raster layout computed on encode:
`pixel_count = (bits + 31) // 32`, `width = height = isqrt(pixel_count) + 1`. -/
def layout (bit_length : Nat) : Nat × Nat × Nat :=
  let pixel_count := (bit_length + 31) / 32
  let width := Nat.sqrt pixel_count + 1
  (pixel_count, width, width)

/-- Outcome of `convert_file_to_image`: either the no-size-benefit abort or
a finished image with its dimensions and size accounting. -/
inductive EncodeResult where
  | aborted
  | image (grid : List Pixel) (width height origSize compSize : Nat)
deriving DecidableEq, Repr

/-- `convert_file_to_image` on in-memory file data, with the zstd compressor
abstracted as a parameter: compress, abort when the compressed form is not
strictly smaller, otherwise pack into a square grid. -/
def convert_file_to_image (compress : List Nat → List Nat)
    (file_data : List Nat) : EncodeResult :=
  let original_size := file_data.length
  let compressed_data := compress file_data
  if original_size ≤ compressed_data.length then
    EncodeResult.aborted
  else
    let binary_data := bytesToBits compressed_data
    let pixel_count := (binary_data.length + 31) / 32
    let width := Nat.sqrt pixel_count + 1
    EncodeResult.image (create_image_from_binary binary_data width width)
      width width original_size compressed_data.length

/-- `convert_image_to_file` on an in-memory row-major pixel grid, with the
zstd decompressor abstracted as a parameter: flatten, reassemble bytes,
decompress. -/
def convert_image_to_file (decompress : List Nat → List Nat)
    (img : List Pixel) : List Nat :=
  decompress (bitstring_to_bytes (create_binary_from_image img))

/-- Spec-side definition of the decode byte reassembly, following the words
of the specification: big-endian grouping of 8 bits per byte, padding on the
right with zero bits when the length is not a multiple of 8.  It exists to
be compared with `bitstring_to_bytes`, the definition taken from the code. -/
def groupBytesAux : Nat → List Bool → List Nat
  | 0, _ => []
  | k + 1, l => bitsToNat (l.take 8) :: groupBytesAux k (l.drop 8)

/-- Plain big-endian grouping of a bit string into 8-bit bytes. -/
def groupBytes (l : List Bool) : List Nat :=
  groupBytesAux (l.length / 8) l

/-- Spec-side byte reassembly: pad on the right to a multiple of 8 bits,
then group. -/
def spec_bits_to_bytes_right_pad (bits : List Bool) : List Nat :=
  groupBytes (bits ++ List.replicate ((8 - bits.length % 8) % 8) false)

/-! ## Basic lemmas about bit and byte renderings -/

theorem length_byteToBits (n : Nat) : (byteToBits n).length = 8 := rfl

theorem length_bytesToBits (bs : List Nat) : (bytesToBits bs).length = 8 * bs.length := by
  induction bs with
  | nil => rfl
  | cons b bs ih => simp [bytesToBits, ih, length_byteToBits]; ring

theorem length_pixelToBits (p : Pixel) : (pixelToBits p).length = 32 := by
  simp [pixelToBits, length_byteToBits]

theorem length_rgba_pixels_to_binary (ps : List Pixel) :
    (rgba_pixels_to_binary ps).length = 32 * ps.length := by
  induction ps with
  | nil => rfl
  | cons p ps ih => simp [rgba_pixels_to_binary, ih, length_pixelToBits]; ring

theorem length_chunkPixelsAux (n : Nat) (l : List Bool) :
    (chunkPixelsAux n l).length = n := by
  induction n generalizing l with
  | zero => rfl
  | succ n ih => simp [chunkPixelsAux, ih]

theorem bitsToNat_foldl (l : List Bool) (acc : Nat) :
    l.foldl (fun acc b => 2 * acc + (if b then 1 else 0)) acc
      = acc * 2 ^ l.length + bitsToNat l := by
  induction l generalizing acc with
  | nil => simp [bitsToNat]
  | cons b t ih =>
    show t.foldl _ (2 * acc + _) = _
    rw [ih (2 * acc + (if b then 1 else 0))]
    have h0 : bitsToNat (b :: t) = (if b then 1 else 0) * 2 ^ t.length + bitsToNat t := by
      show t.foldl _ (2 * 0 + _) = _
      rw [ih (2 * 0 + (if b then 1 else 0))]
      ring_nf
    rw [h0]
    simp only [List.length_cons, pow_succ]
    split <;> ring

theorem bitsToNat_append (l₁ l₂ : List Bool) :
    bitsToNat (l₁ ++ l₂) = bitsToNat l₁ * 2 ^ l₂.length + bitsToNat l₂ := by
  unfold bitsToNat
  rw [List.foldl_append, bitsToNat_foldl]
  rfl

theorem bitsToNat_lt (l : List Bool) : bitsToNat l < 2 ^ l.length := by
  induction l with
  | nil => simp [bitsToNat]
  | cons b t ih =>
    have h : bitsToNat (b :: t) = (if b then 1 else 0) * 2 ^ t.length + bitsToNat t := by
      show t.foldl _ (2 * 0 + _) = _
      rw [bitsToNat_foldl]
      ring_nf
    rw [h]
    have hb : (if b then 1 else 0) ≤ 1 := by split <;> omega
    calc (if b then 1 else 0) * 2 ^ t.length + bitsToNat t
        < (if b then 1 else 0) * 2 ^ t.length + 2 ^ t.length := by omega
      _ ≤ 2 ^ t.length + 2 ^ t.length := by
          have := Nat.mul_le_mul_right (2 ^ t.length) hb
          omega
      _ = 2 ^ (t.length + 1) := by rw [pow_succ]; ring
      _ = 2 ^ (b :: t).length := by simp

theorem bitsToNat_replicate_false (n : Nat) :
    bitsToNat (List.replicate n false) = 0 := by
  induction n with
  | zero => rfl
  | succ n ih =>
    show bitsToNat (false :: List.replicate n false) = 0
    have h : bitsToNat (false :: List.replicate n false)
        = (if false then 1 else 0) * 2 ^ n + bitsToNat (List.replicate n false) := by
      show (List.replicate n false).foldl _ (2 * 0 + _) = _
      rw [bitsToNat_foldl]
      simp
    rw [h, ih]
    simp

set_option maxRecDepth 100000 in
theorem byteToBits_bitsToNat (l : List Bool) (h : l.length = 8) :
    byteToBits (bitsToNat l) = l := by
  rcases l with _ | ⟨a, _ | ⟨b, _ | ⟨c, _ | ⟨d, _ | ⟨e, _ | ⟨f, _ | ⟨g, _ | ⟨k, _ | ⟨i, t⟩⟩⟩⟩⟩⟩⟩⟩⟩ <;>
    simp only [List.length_cons, List.length_nil] at h <;> try omega
  revert a b c d e f g k
  decide

set_option maxRecDepth 100000 in
theorem bitsToNat_byteToBits : ∀ n < 256, bitsToNat (byteToBits n) = n := by
  decide

/-! ## The pack / unpack round trip on bit strings -/

theorem pixelToBits_pixelOfChunk (c : List Bool) (h : c.length = 32) :
    pixelToBits (pixelOfChunk c) = c := by
  have h1 : (c.take 8).length = 8 := by simp [h]
  have h2 : ((c.drop 8).take 8).length = 8 := by simp [h]
  have h3 : ((c.drop 16).take 8).length = 8 := by simp [h]
  have h4 : ((c.drop 24).take 8).length = 8 := by simp [h]
  show byteToBits (bitsToNat (c.take 8)) ++ byteToBits (bitsToNat ((c.drop 8).take 8))
      ++ byteToBits (bitsToNat ((c.drop 16).take 8)) ++ byteToBits (bitsToNat ((c.drop 24).take 8)) = c
  rw [byteToBits_bitsToNat _ h1, byteToBits_bitsToNat _ h2,
    byteToBits_bitsToNat _ h3, byteToBits_bitsToNat _ h4]
  have e4 : (c.drop 24).take 8 = c.drop 24 :=
    List.take_of_length_le (by simp [h])
  have e3 : (c.drop 16).take 8 ++ (c.drop 24).take 8 = c.drop 16 := by
    rw [e4]
    have : c.drop 24 = (c.drop 16).drop 8 := by rw [List.drop_drop]
    rw [this, List.take_append_drop]
  have e2 : (c.drop 8).take 8 ++ ((c.drop 16).take 8 ++ (c.drop 24).take 8) = c.drop 8 := by
    rw [e3]
    have : c.drop 16 = (c.drop 8).drop 8 := by rw [List.drop_drop]
    rw [this, List.take_append_drop]
  calc c.take 8 ++ (c.drop 8).take 8 ++ (c.drop 16).take 8 ++ (c.drop 24).take 8
      = c.take 8 ++ ((c.drop 8).take 8 ++ ((c.drop 16).take 8 ++ (c.drop 24).take 8)) := by
        simp [List.append_assoc]
    _ = c.take 8 ++ c.drop 8 := by rw [e2]
    _ = c := List.take_append_drop 8 c

theorem unpack_chunkPixelsAux (n : Nat) (l : List Bool) (h : l.length = 32 * n) :
    rgba_pixels_to_binary (chunkPixelsAux n l) = l := by
  induction n generalizing l with
  | zero =>
    have : l = [] := List.length_eq_zero.mp (by omega)
    subst this
    rfl
  | succ n ih =>
    show pixelToBits (pixelOfChunk (l.take 32)) ++ rgba_pixels_to_binary (chunkPixelsAux n (l.drop 32)) = l
    rw [pixelToBits_pixelOfChunk _ (by simp [h] <;> omega),
      ih (l.drop 32) (by simp [h] <;> ring_nf <;> omega),
      List.take_append_drop]

theorem rgba_binary_to_rgba_pixels (bits : List Bool) :
    rgba_pixels_to_binary (binary_to_rgba_pixels bits).1
      = bits ++ List.replicate ((32 - bits.length % 32) % 32) false := by
  show rgba_pixels_to_binary (chunkPixelsAux
      (((bits ++ List.replicate ((32 - bits.length % 32) % 32) false).length + 31) / 32)
      (bits ++ List.replicate ((32 - bits.length % 32) % 32) false)) = _
  apply unpack_chunkPixelsAux
  simp
  omega

theorem pixels_length (bits : List Bool) :
    (binary_to_rgba_pixels bits).1.length = (bits.length + 31) / 32 := by
  show (chunkPixelsAux _ _).length = _
  rw [length_chunkPixelsAux]
  simp
  omega

theorem rgba_append (xs ys : List Pixel) :
    rgba_pixels_to_binary (xs ++ ys)
      = rgba_pixels_to_binary xs ++ rgba_pixels_to_binary ys := by
  induction xs with
  | nil => rfl
  | cons p ps ih => simp [rgba_pixels_to_binary, ih]

theorem pixelToBits_zero : pixelToBits ⟨0, 0, 0, 0⟩ = List.replicate 32 false := by
  decide

theorem rgba_replicate_zero (m : Nat) :
    rgba_pixels_to_binary (List.replicate m ⟨0, 0, 0, 0⟩)
      = List.replicate (32 * m) false := by
  induction m with
  | zero => rfl
  | succ m ih =>
    show pixelToBits ⟨0, 0, 0, 0⟩ ++ rgba_pixels_to_binary (List.replicate m ⟨0, 0, 0, 0⟩) = _
    rw [pixelToBits_zero, ih, ← List.replicate_add]
    congr 1
    ring

/-! ## Byte reassembly: the to_bytes rendering versus 8-bit grouping -/

theorem natToBytesBE_mod (k : Nat) : ∀ n, natToBytesBE (n % 256 ^ k) k = natToBytesBE n k := by
  induction k with
  | zero => intro n; rfl
  | succ k ih =>
    intro n
    show (n % 256 ^ (k + 1)) / 256 ^ k % 256 :: natToBytesBE (n % 256 ^ (k + 1)) k
        = n / 256 ^ k % 256 :: natToBytesBE n k
    have hd : (n % 256 ^ (k + 1)) / 256 ^ k % 256 = n / 256 ^ k % 256 := by
      have h1 : n % 256 ^ (k + 1) = n % (256 ^ k * 256) := by rw [pow_succ]
      have h2 : n % (256 ^ k * 256) / 256 ^ k = n / 256 ^ k % 256 :=
        Nat.mod_mul_right_div_self n (256 ^ k) 256
      have h3 : n % (256 ^ k * 256) / 256 ^ k < 256 := by
        have := Nat.mod_lt n (y := 256 ^ k * 256) (by positivity)
        exact Nat.div_lt_of_lt_mul this
      rw [h1, Nat.mod_eq_of_lt h3, h2]
    have ht : natToBytesBE (n % 256 ^ (k + 1)) k = natToBytesBE n k := by
      have h4 : n % 256 ^ (k + 1) % 256 ^ k = n % 256 ^ k :=
        Nat.mod_mod_of_dvd n (pow_dvd_pow 256 (Nat.le_succ k))
      rw [← ih (n % 256 ^ (k + 1)), h4, ih n]
    rw [hd, ht]

theorem natToBytesBE_bitsToNat (k : Nat) :
    ∀ l : List Bool, l.length = 8 * k → natToBytesBE (bitsToNat l) k = groupBytesAux k l := by
  induction k with
  | zero =>
    intro l h
    rfl
  | succ k ih =>
    intro l h
    have hA : bitsToNat (l.take 8) < 256 := by
      have h8 : (l.take 8).length = 8 := by simp [h]
      have := bitsToNat_lt (l.take 8)
      rw [h8] at this
      norm_num at this
      exact this
    have hlen : (l.drop 8).length = 8 * k := by simp [h]; ring_nf; omega
    have hB : bitsToNat (l.drop 8) < 256 ^ k := by
      have := bitsToNat_lt (l.drop 8)
      rw [hlen] at this
      calc bitsToNat (l.drop 8) < 2 ^ (8 * k) := this
        _ = 256 ^ k := by rw [pow_mul]; norm_num
    have hsplit : bitsToNat l
        = 256 ^ k * bitsToNat (l.take 8) + bitsToNat (l.drop 8) := by
      conv_lhs => rw [← List.take_append_drop 8 l]
      rw [bitsToNat_append, hlen]
      have : (2 : Nat) ^ (8 * k) = 256 ^ k := by rw [pow_mul]; norm_num
      rw [this]
      ring
    show bitsToNat l / 256 ^ k % 256 :: natToBytesBE (bitsToNat l) k
        = bitsToNat (l.take 8) :: groupBytesAux k (l.drop 8)
    have hd : bitsToNat l / 256 ^ k % 256 = bitsToNat (l.take 8) := by
      rw [hsplit, Nat.mul_add_div (by positivity), Nat.div_eq_of_lt hB]
      rw [Nat.add_zero, Nat.mod_eq_of_lt hA]
    have ht : natToBytesBE (bitsToNat l) k = groupBytesAux k (l.drop 8) := by
      rw [← natToBytesBE_mod k (bitsToNat l), hsplit, Nat.mul_add_mod,
        Nat.mod_eq_of_lt hB]
      exact ih (l.drop 8) hlen
    rw [hd, ht]

theorem bitsToNat_leading_zeros (p : Nat) (bits : List Bool) :
    bitsToNat (List.replicate p false ++ bits) = bitsToNat bits := by
  rw [bitsToNat_append, bitsToNat_replicate_false]
  simp

theorem bitstring_to_bytes_left_pad (bits : List Bool) :
    bitstring_to_bytes bits
      = groupBytes (List.replicate ((8 - bits.length % 8) % 8) false ++ bits) := by
  have hlen : (List.replicate ((8 - bits.length % 8) % 8) false ++ bits).length
      = (8 - bits.length % 8) % 8 + bits.length := by simp
  have hk : (8 - bits.length % 8) % 8 + bits.length = 8 * ((bits.length + 7) / 8) := by
    omega
  show natToBytesBE (bitsToNat bits) ((bits.length + 7) / 8) = _
  rw [← bitsToNat_leading_zeros ((8 - bits.length % 8) % 8) bits]
  rw [natToBytesBE_bitsToNat _ _ (by rw [hlen, hk])]
  show _ = groupBytesAux ((List.replicate ((8 - bits.length % 8) % 8) false ++ bits).length / 8) _
  rw [hlen]
  congr 1
  omega

theorem bitstring_to_bytes_aligned (bits : List Bool) (h : bits.length % 8 = 0) :
    bitstring_to_bytes bits = groupBytes bits := by
  have hp : (8 - bits.length % 8) % 8 = 0 := by omega
  rw [bitstring_to_bytes_left_pad, hp]
  rfl

/-! ## Grouping of byte-aligned bit sequences -/

theorem groupBytesAux_replicate_false (z : Nat) :
    groupBytesAux z (List.replicate (8 * z) false) = List.replicate z 0 := by
  induction z with
  | zero => rfl
  | succ z ih =>
    show bitsToNat ((List.replicate (8 * (z + 1)) false).take 8)
        :: groupBytesAux z ((List.replicate (8 * (z + 1)) false).drop 8)
        = List.replicate (z + 1) 0
    rw [List.take_replicate, List.drop_replicate]
    have h1 : min 8 (8 * (z + 1)) = 8 := by omega
    have h2 : 8 * (z + 1) - 8 = 8 * z := by omega
    rw [h1, h2, ih]
    have h3 : bitsToNat (List.replicate 8 false) = 0 := bitsToNat_replicate_false 8
    rw [h3]
    rfl

theorem groupBytesAux_append_zeros (a : Nat) :
    ∀ (Y : List Bool) (z : Nat), Y.length = 8 * a →
      groupBytesAux (a + z) (Y ++ List.replicate (8 * z) false)
        = groupBytesAux a Y ++ List.replicate z 0 := by
  induction a with
  | zero =>
    intro Y z h
    have : Y = [] := List.length_eq_zero.mp (by omega)
    subst this
    simpa using groupBytesAux_replicate_false z
  | succ a ih =>
    intro Y z h
    have hY8 : 8 ≤ Y.length := by omega
    have harith : a + 1 + z = (a + z) + 1 := by omega
    rw [harith]
    show bitsToNat ((Y ++ List.replicate (8 * z) false).take 8)
        :: groupBytesAux (a + z) ((Y ++ List.replicate (8 * z) false).drop 8)
        = (bitsToNat (Y.take 8) :: groupBytesAux a (Y.drop 8)) ++ List.replicate z 0
    rw [List.take_append_of_le_length hY8, List.drop_append_of_le_length hY8]
    rw [ih (Y.drop 8) z (by simp [h]; ring_nf; omega)]
    rfl

theorem groupBytesAux_bytesToBits (c : List Nat) (hc : ∀ x ∈ c, x < 256) :
    groupBytesAux c.length (bytesToBits c) = c := by
  induction c with
  | nil => rfl
  | cons x t ih =>
    show bitsToNat ((byteToBits x ++ bytesToBits t).take 8)
        :: groupBytesAux t.length ((byteToBits x ++ bytesToBits t).drop 8)
        = x :: t
    rw [List.take_left' (length_byteToBits x), List.drop_left' (length_byteToBits x)]
    rw [bitsToNat_byteToBits x (hc x (List.mem_cons_self x t)),
      ih (fun y hy => hc y (List.mem_cons_of_mem x hy))]

/-! ## Chunk indexing and channel bounds -/

theorem bitsToNat_lt_256 (l : List Bool) (h : l.length ≤ 8) : bitsToNat l < 256 := by
  calc bitsToNat l < 2 ^ l.length := bitsToNat_lt l
    _ ≤ 2 ^ 8 := Nat.pow_le_pow_right (by norm_num) h
    _ = 256 := by norm_num

theorem pixelOfChunk_channels_lt (c : List Bool) :
    (pixelOfChunk c).r < 256 ∧ (pixelOfChunk c).g < 256 ∧
    (pixelOfChunk c).b < 256 ∧ (pixelOfChunk c).a < 256 :=
  ⟨bitsToNat_lt_256 _ (by simp), bitsToNat_lt_256 _ (by simp),
   bitsToNat_lt_256 _ (by simp), bitsToNat_lt_256 _ (by simp)⟩

theorem chunkPixelsAux_eq_map (n : Nat) :
    ∀ l : List Bool, chunkPixelsAux n l
      = (List.range n).map (fun i => pixelOfChunk ((l.drop (32 * i)).take 32)) := by
  induction n with
  | zero => intro l; rfl
  | succ n ih =>
    intro l
    rw [List.range_succ_eq_map, List.map_cons, List.map_map]
    show pixelOfChunk (l.take 32) :: chunkPixelsAux n (l.drop 32) = _
    simp only [Nat.mul_zero, List.drop_zero]
    congr 1
    rw [ih (l.drop 32)]
    apply List.map_congr_left
    intro i _
    show pixelOfChunk (((l.drop 32).drop (32 * i)).take 32)
        = pixelOfChunk ((l.drop (32 * Nat.succ i)).take 32)
    rw [List.drop_drop]
    have h2 : 32 + 32 * i = 32 * Nat.succ i := by omega
    have h2' : 32 * i + 32 = 32 * Nat.succ i := by omega
    first
    | rw [h2]
    | rw [h2']

/-! ## Decoding the packed grid recovers the packed bytes plus zero slack -/

theorem decode_create_image (c : List Nat) (hc : ∀ x ∈ c, x < 256) (w h : Nat)
    (hwh : ((bytesToBits c).length + 31) / 32 ≤ w * h) :
    bitstring_to_bytes (rgba_pixels_to_binary (create_image_from_binary (bytesToBits c) w h))
      = c ++ List.replicate (4 * (w * h) - c.length) 0 := by
  have hblen : (bytesToBits c).length = 8 * c.length := length_bytesToBits c
  have hplen : (binary_to_rgba_pixels (bytesToBits c)).1.length
      = ((bytesToBits c).length + 31) / 32 := pixels_length (bytesToBits c)
  have hgrid : create_image_from_binary (bytesToBits c) w h
      = (binary_to_rgba_pixels (bytesToBits c)).1
        ++ List.replicate (w * h - ((bytesToBits c).length + 31) / 32) ⟨0, 0, 0, 0⟩ := by
    show (binary_to_rgba_pixels (bytesToBits c)).1
        ++ List.replicate (w * h - (binary_to_rgba_pixels (bytesToBits c)).1.length) ⟨0, 0, 0, 0⟩ = _
    rw [hplen]
  rw [hgrid, rgba_append, rgba_binary_to_rgba_pixels, rgba_replicate_zero,
    List.append_assoc, ← List.replicate_add]
  have hz : (32 - (bytesToBits c).length % 32) % 32
        + 32 * (w * h - ((bytesToBits c).length + 31) / 32)
      = 8 * (4 * (w * h) - c.length) := by
    omega
  rw [hz]
  rw [bitstring_to_bytes_aligned _ (by simp [hblen] <;> omega)]
  show groupBytesAux ((bytesToBits c ++ List.replicate (8 * (4 * (w * h) - c.length)) false).length / 8) _ = _
  have hq : (bytesToBits c ++ List.replicate (8 * (4 * (w * h) - c.length)) false).length / 8
      = c.length + (4 * (w * h) - c.length) := by
    simp [hblen]
    omega
  rw [hq, groupBytesAux_append_zeros c.length (bytesToBits c) _ hblen,
    groupBytesAux_bytesToBits c hc]

/-- The packing stage of the encoder, from compressed bytes to the pixel
grid and its computed square dimensions, exactly as the image branch of
`convert_file_to_image` computes them. -/
def pack (compressed_data : List Nat) : List Pixel × Nat × Nat :=
  let binary_data := bytesToBits compressed_data
  let pixel_count := (binary_data.length + 31) / 32
  let width := Nat.sqrt pixel_count + 1
  (create_image_from_binary binary_data width width, width, width)

/-! ## The claims -/

/-- C1: for every non-empty byte sequence whose compressed form is strictly
shorter, the full encode pipeline (compress, pack into the computed RGBA
grid) followed by the full decode pipeline (flatten the grid row-major,
reassemble bits to bytes, decompress) returns exactly the original bytes.
The zstd compressor and decompressor live outside this code base and are
abstracted as functions satisfying the contract the specification states
for the compression boundary: the decompressor inverts the compressor and
ignores trailing zero bytes beyond the self-terminating compressed frame. -/
theorem C1_round_trip (compress decompress : List Nat → List Nat) (b : List Nat)
    (hb : b ≠ [])
    (hbytes : ∀ x ∈ compress b, x < 256)
    (hlt : (compress b).length < b.length)
    (hdec : ∀ k, decompress (compress b ++ List.replicate k 0) = b) :
    ∃ grid w h so sc,
      convert_file_to_image compress b = EncodeResult.image grid w h so sc ∧
      convert_image_to_file decompress grid = b := by
  refine ⟨create_image_from_binary (bytesToBits (compress b))
      (Nat.sqrt (((bytesToBits (compress b)).length + 31) / 32) + 1)
      (Nat.sqrt (((bytesToBits (compress b)).length + 31) / 32) + 1),
    Nat.sqrt (((bytesToBits (compress b)).length + 31) / 32) + 1,
    Nat.sqrt (((bytesToBits (compress b)).length + 31) / 32) + 1,
    b.length, (compress b).length, ?_, ?_⟩
  · simp only [convert_file_to_image]
    rw [if_neg (not_le.mpr hlt)]
  · show decompress (bitstring_to_bytes (rgba_pixels_to_binary
        (create_image_from_binary (bytesToBits (compress b))
          (Nat.sqrt (((bytesToBits (compress b)).length + 31) / 32) + 1)
          (Nat.sqrt (((bytesToBits (compress b)).length + 31) / 32) + 1)))) = b
    rw [decode_create_image (compress b) hbytes _ _ (le_of_lt (Nat.lt_succ_sqrt _))]
    exact hdec _

theorem C1_round_trip_witness :
    ([65, 65, 65, 65, 65] : List Nat) ≠ [] ∧
    (∃ grid w h so sc,
      convert_file_to_image (fun _ => [65]) [65, 65, 65, 65, 65]
        = EncodeResult.image grid w h so sc ∧
      convert_image_to_file (fun _ => [65, 65, 65, 65, 65]) grid
        = [65, 65, 65, 65, 65]) :=
  ⟨by decide,
    C1_round_trip (fun _ => [65]) (fun _ => [65, 65, 65, 65, 65]) [65, 65, 65, 65, 65]
      (by decide) (by decide) (by decide) (fun _ => rfl)⟩

/-- C2 counterexample: the claim says the decode-side conversion pads bit
sequences on the right with zero bits when the length is not a multiple of
8, but the code writes the big-endian value into ceil(len/8) bytes, which
pads on the left: on the single bit 1 the code yields byte 1, while right
padding would yield byte 128. -/
theorem C2_right_pad_counterexample :
    bitstring_to_bytes [true] = [1] ∧
    spec_bits_to_bytes_right_pad [true] = [128] ∧
    bitstring_to_bytes [true] ≠ spec_bits_to_bytes_right_pad [true] := by
  decide

/-- C2 amended: the bit sequence recovered from the image is converted to
bytes by big-endian grouping of 8 bits per byte, padded on the LEFT with
zero bits when the length is not a multiple of 8; when the length is a
multiple of 8 the result is the plain 8-bit grouping of the bit string,
leading zero bits preserved. -/
theorem C2_bytes_left_pad (bits : List Bool) (hb : bits ≠ []) :
    bitstring_to_bytes bits
      = groupBytes (List.replicate ((8 - bits.length % 8) % 8) false ++ bits) ∧
    (bits.length % 8 = 0 → bitstring_to_bytes bits = groupBytes bits) :=
  ⟨bitstring_to_bytes_left_pad bits, fun h => bitstring_to_bytes_aligned bits h⟩

theorem C2_bytes_left_pad_witness :
    ([true, false, true, false, true, false, true, false] : List Bool) ≠ [] ∧
    (bitstring_to_bytes [true, false, true, false, true, false, true, false]
      = groupBytes (List.replicate
          ((8 - ([true, false, true, false, true, false, true, false] : List Bool).length % 8) % 8) false
          ++ [true, false, true, false, true, false, true, false]) ∧
     (([true, false, true, false, true, false, true, false] : List Bool).length % 8 = 0 →
       bitstring_to_bytes [true, false, true, false, true, false, true, false]
         = groupBytes [true, false, true, false, true, false, true, false])) :=
  ⟨by decide, C2_bytes_left_pad [true, false, true, false, true, false, true, false] (by decide)⟩

/-- C3: for every payload bit length the computed layout is square, the
side is the integer square root of pixel_count plus one, pixel_count is
ceil(n/32), and the grid holds at least pixel_count pixels. -/
theorem C3_layout (n : Nat) :
    (layout n).2.1 = (layout n).2.2 ∧
    (layout n).2.1 = Nat.sqrt ((layout n).1) + 1 ∧
    (layout n).1 = (n + 31) / 32 ∧
    (layout n).1 ≤ (layout n).2.1 * (layout n).2.2 :=
  ⟨rfl, rfl, rfl, le_of_lt (Nat.lt_succ_sqrt _)⟩

/-- C4: the packer appends exactly (32 - (8 len mod 32)) mod 32 zero bits
to the bit rendering of a byte sequence, the padded bit length is always a
multiple of 32, and a payload already a multiple of 32 bits gets zero
padding. -/
theorem C4_padding (b : List Nat) :
    (binary_to_rgba_pixels (bytesToBits b)).2 = (32 - (8 * b.length) % 32) % 32 ∧
    ((bytesToBits b).length + (binary_to_rgba_pixels (bytesToBits b)).2) % 32 = 0 ∧
    ((8 * b.length) % 32 = 0 → (binary_to_rgba_pixels (bytesToBits b)).2 = 0) := by
  have hl : (bytesToBits b).length = 8 * b.length := length_bytesToBits b
  refine ⟨?_, ?_, ?_⟩
  · show (32 - (bytesToBits b).length % 32) % 32 = _
    rw [hl]
  · show ((bytesToBits b).length + (32 - (bytesToBits b).length % 32) % 32) % 32 = 0
    omega
  · intro h
    show (32 - (bytesToBits b).length % 32) % 32 = 0
    omega

theorem C4_padding_witness :
    (8 * ([0, 0, 0, 0] : List Nat).length) % 32 = 0 ∧
    (binary_to_rgba_pixels (bytesToBits [0, 0, 0, 0])).2 = 0 :=
  ⟨by decide, (C4_padding [0, 0, 0, 0]).2.2 (by decide)⟩

/-- C5: each 32-bit chunk of the padded bitstream maps to exactly one
pixel, the i-th pixel being built from chunk slices [0,8) as R, [8,16) as
G, [16,24) as B and [24,32) as A via big-endian binary-to-integer
conversion, and every channel value is below 256. -/
theorem C5_chunk_to_pixel (bits : List Bool) :
    (binary_to_rgba_pixels bits).1
      = (List.range ((bits.length + (32 - bits.length % 32) % 32) / 32)).map
          (fun i => pixelOfChunk
            (((bits ++ List.replicate ((32 - bits.length % 32) % 32) false).drop (32 * i)).take 32)) ∧
    ∀ p ∈ (binary_to_rgba_pixels bits).1,
      p.r < 256 ∧ p.g < 256 ∧ p.b < 256 ∧ p.a < 256 := by
  have hcount : ((bits ++ List.replicate ((32 - bits.length % 32) % 32) false).length + 31) / 32
      = (bits.length + (32 - bits.length % 32) % 32) / 32 := by
    simp <;> omega
  constructor
  · show chunkPixelsAux
        (((bits ++ List.replicate ((32 - bits.length % 32) % 32) false).length + 31) / 32)
        (bits ++ List.replicate ((32 - bits.length % 32) % 32) false) = _
    rw [chunkPixelsAux_eq_map, hcount]
  · intro p hp
    rw [show (binary_to_rgba_pixels bits).1 = chunkPixelsAux
        (((bits ++ List.replicate ((32 - bits.length % 32) % 32) false).length + 31) / 32)
        (bits ++ List.replicate ((32 - bits.length % 32) % 32) false) from rfl,
      chunkPixelsAux_eq_map] at hp
    obtain ⟨i, -, rfl⟩ := List.mem_map.mp hp
    exact pixelOfChunk_channels_lt _

/-- C6: unpacking the pixel list produced by packing a bit string, by
emitting each channel of each pixel as 8 bits in order, yields exactly the
original bit string followed by the zero padding the packer appended. -/
theorem C6_unpack_of_pack (bits : List Bool) :
    rgba_pixels_to_binary (binary_to_rgba_pixels bits).1
      = bits ++ List.replicate ((binary_to_rgba_pixels bits).2) false :=
  rgba_binary_to_rgba_pixels bits

/-- C7: whenever the compressed form is at least as long as the original
data, the encoder returns the no-size-benefit abort outcome and produces
no image artifact. -/
theorem C7_no_benefit_abort (compress : List Nat → List Nat) (b : List Nat)
    (h : b.length ≤ (compress b).length) :
    convert_file_to_image compress b = EncodeResult.aborted := by
  simp only [convert_file_to_image]
  rw [if_pos h]

theorem C7_no_benefit_abort_witness :
    ([0] : List Nat).length ≤ ((fun l : List Nat => l) [0]).length ∧
    convert_file_to_image (fun l => l) [0] = EncodeResult.aborted :=
  ⟨by decide, C7_no_benefit_abort (fun l => l) [0] (by decide)⟩

/-- C8: decoding a pixel grid extended with any number of extra all-zero
trailing pixels yields the same output as decoding the grid itself, under
the decompressor contract that trailing zero bytes beyond the compressed
frame are ignored. -/
theorem C8_slack_tolerance (decompress : List Nat → List Nat)
    (grid : List Pixel) (k : Nat)
    (hdec : ∀ m, decompress (bitstring_to_bytes (create_binary_from_image grid)
        ++ List.replicate m 0)
      = decompress (bitstring_to_bytes (create_binary_from_image grid))) :
    convert_image_to_file decompress (grid ++ List.replicate k ⟨0, 0, 0, 0⟩)
      = convert_image_to_file decompress grid := by
  show decompress (bitstring_to_bytes (rgba_pixels_to_binary
      (grid ++ List.replicate k ⟨0, 0, 0, 0⟩))) = _
  rw [rgba_append, rgba_replicate_zero]
  have hY : (rgba_pixels_to_binary grid).length = 8 * (4 * grid.length) := by
    rw [length_rgba_pixels_to_binary]; ring
  have h32 : 32 * k = 8 * (4 * k) := by ring
  have h1 : bitstring_to_bytes (rgba_pixels_to_binary grid ++ List.replicate (8 * (4 * k)) false)
      = bitstring_to_bytes (rgba_pixels_to_binary grid) ++ List.replicate (4 * k) 0 := by
    rw [bitstring_to_bytes_aligned _ (by simp [hY] <;> omega),
      bitstring_to_bytes_aligned _ (by simp [hY] <;> omega)]
    show groupBytesAux ((rgba_pixels_to_binary grid
        ++ List.replicate (8 * (4 * k)) false).length / 8) _
      = groupBytesAux ((rgba_pixels_to_binary grid).length / 8) _ ++ _
    have hq1 : (rgba_pixels_to_binary grid ++ List.replicate (8 * (4 * k)) false).length / 8
        = 4 * grid.length + 4 * k := by
      simp [hY] <;> omega
    have hq2 : (rgba_pixels_to_binary grid).length / 8 = 4 * grid.length := by
      simp [hY] <;> omega
    rw [hq1, hq2, groupBytesAux_append_zeros (4 * grid.length) _ _ hY]
  rw [h32, h1]
  exact hdec (4 * k)

theorem C8_slack_tolerance_witness :
    (∀ m, (fun _ : List Nat => ([] : List Nat))
        (bitstring_to_bytes (create_binary_from_image ([⟨1, 2, 3, 4⟩] : List Pixel))
          ++ List.replicate m 0)
      = (fun _ : List Nat => ([] : List Nat))
        (bitstring_to_bytes (create_binary_from_image ([⟨1, 2, 3, 4⟩] : List Pixel)))) ∧
    convert_image_to_file (fun _ => []) (([⟨1, 2, 3, 4⟩] : List Pixel) ++ List.replicate 2 ⟨0, 0, 0, 0⟩)
      = convert_image_to_file (fun _ => []) ([⟨1, 2, 3, 4⟩] : List Pixel) :=
  ⟨fun _ => rfl, C8_slack_tolerance (fun _ => []) [⟨1, 2, 3, 4⟩] 2 (fun _ => rfl)⟩

/-- C9: the packer is total and deterministic: on every byte sequence it
produces a full width times height grid, and on the empty input the same
formulas yield a 1 by 1 grid whose meaningful pixel list is empty, the
single grid cell holding the default zero pixel. -/
theorem C9_pack_total :
    (∀ b : List Nat, (pack b).1.length = (pack b).2.1 * (pack b).2.2) ∧
    pack [] = ([⟨0, 0, 0, 0⟩], 1, 1) ∧
    (binary_to_rgba_pixels (bytesToBits [])).1 = [] := by
  refine ⟨?_, by decide, by decide⟩
  intro b
  have hplen := pixels_length (bytesToBits b)
  have hle : ((bytesToBits b).length + 31) / 32
      ≤ (Nat.sqrt (((bytesToBits b).length + 31) / 32) + 1)
        * (Nat.sqrt (((bytesToBits b).length + 31) / 32) + 1) :=
    le_of_lt (Nat.lt_succ_sqrt _)
  show ((binary_to_rgba_pixels (bytesToBits b)).1
      ++ List.replicate ((Nat.sqrt (((bytesToBits b).length + 31) / 32) + 1)
          * (Nat.sqrt (((bytesToBits b).length + 31) / 32) + 1)
          - (binary_to_rgba_pixels (bytesToBits b)).1.length) (⟨0, 0, 0, 0⟩ : Pixel)).length
    = (Nat.sqrt (((bytesToBits b).length + 31) / 32) + 1)
        * (Nat.sqrt (((bytesToBits b).length + 31) / 32) + 1)
  rw [List.length_append, List.length_replicate, hplen]
  omega

/-- C10: on the empty input file the compressed length is always at least
the original length zero, so encode always takes the no-benefit abort
branch and the empty-input packing path is unreachable through the encode
pipeline. -/
theorem C10_empty_always_aborts (compress : List Nat → List Nat) :
    convert_file_to_image compress [] = EncodeResult.aborted := by
  simp only [convert_file_to_image]
  rw [if_pos (show ([] : List Nat).length ≤ (compress []).length from Nat.zero_le _)]

end ByteMap
